import Mathlib

/-!
Shallow embedding of the COLD_EMAIL_GENERATOR portfolio core
(`src/portfolio.py`) and the text-cleaning helper (`src/utils.py`),
with theorems checking the natural-language specification against it.

Machine strings are modelled as Lean `String`/`List Char`; Python `None`
and truthiness are modelled by an explicit `PyVal` type; the ChromaDB
collection is modelled as a list of documents plus a fresh-key counter
(standing in for `uuid.uuid4()`, assumed collision-free); the vector
store's `query` call is a parameter, since its ranking is external.
-/

/-- Python values that may appear in a skills list (`query_links` input). -/
inductive PyVal where
  | pyStr (s : String)
  | pyNone
  | pyInt (n : Int)
deriving DecidableEq, Repr

/-- Python truthiness for the `if skill` filter in `query_links`. -/
def pyTruthy : PyVal → Bool
  | .pyStr s => s ≠ ""
  | .pyNone => false
  | .pyInt n => n ≠ 0

/-- Python whitespace class (the chars matched by `\s` / split / strip). -/
def isPySpace (c : Char) : Bool :=
  c = ' ' || c = '\t' || c = '\n' || c = '\r' || c = '\x0b' || c = '\x0c'

/-- `[a-zA-Z0-9 ]`: the characters kept by the third `re.sub` of `clean_text`. -/
def isAlnumSpace (c : Char) : Bool :=
  ('a' ≤ c && c ≤ 'z') || ('A' ≤ c && c ≤ 'Z') || ('0' ≤ c && c ≤ '9') || c = ' '

/-- Drop leading whitespace then trailing whitespace: Python `str.strip()`. -/
def dropTrailingWs (cs : List Char) : List Char :=
  (cs.reverse.dropWhile isPySpace).reverse

/-- Python `str.strip()` on a character list. -/
def pyStrip (cs : List Char) : List Char :=
  dropTrailingWs (cs.dropWhile isPySpace)

/-- Python `str.strip()` on a `String`. -/
def pyStripStr (s : String) : String :=
  ⟨pyStrip s.data⟩

/-- Python `str()` coercion used by `str(skill)` in `query_links`. -/
def pyStrOf : PyVal → String
  | .pyStr s => s
  | .pyNone => "None"
  | .pyInt n => toString n

/-- The `skills` argument of `query_links`: a single string or a Python list. -/
inductive SkillsInput where
  | single (s : String)
  | many (l : List PyVal)

/-- `skills = [skills] if isinstance(skills, str) else skills`. -/
def coerceSkills : SkillsInput → List PyVal
  | .single s => [.pyStr s]
  | .many l => l

/-- `[str(skill).strip() for skill in skills if skill]`: the falsy filter runs
on the raw entry, before stripping, so a whitespace-only string survives as
`""`. -/
def normalizeSkills (inp : SkillsInput) : List String :=
  ((coerceSkills inp).filter pyTruthy).map (fun v => pyStripStr (pyStrOf v))

/-- One embedded document of the Chroma collection: generated key, rendered
text, and the `techstack` metadata value. Keys are modelled as naturals drawn
from a counter (`uuid.uuid4()` assumed collision-free). -/
structure Doc where
  id : Nat
  text : String
  techstack : String
deriving DecidableEq, Repr

/-- Collection contents plus the fresh-key supply. -/
structure PortfolioState where
  coll : List Doc
  nextId : Nat
deriving DecidableEq, Repr

/-- Every stored key was drawn from the counter: the key-supply invariant. -/
def WFState (st : PortfolioState) : Prop :=
  ∀ d ∈ st.coll, d.id < st.nextId

/-- `f"Techstack: {row['Techstack']}, Links: {row['Links']}"`. -/
def renderDoc (ts links : String) : String :=
  "Techstack: " ++ ts ++ ", Links: " ++ links

/-- The documents created by the insertion loop, keys counting up from `n`. -/
def newDocs (n : Nat) : List (String × String) → List Doc
  | [] => []
  | (ts, lk) :: rest => ⟨n, renderDoc ts lk, ts⟩ :: newDocs (n + 1) rest

/-- The `collection.add` loop shared by `load_portfolio` and
`load_custom_portfolio`: one document per row, each with a fresh key. -/
def insertRows (st : PortfolioState) (rows : List (String × String)) : PortfolioState :=
  ⟨st.coll ++ newDocs st.nextId rows, st.nextId + rows.length⟩

/-- `collection.delete(ids=existing_ids)`. -/
def deleteByIds (docs : List Doc) (ids : List Nat) : List Doc :=
  docs.filter (fun d => !ids.contains d.id)

/-- A pandas DataFrame as far as the portfolio code inspects it: a column-name
list and rows carrying the two cell values (accessed as `row['Techstack']`,
`row['Links']` only after the column check has passed). -/
structure DataFrame where
  columns : List String
  rows : List (String × String)

/-- `Portfolio.load_portfolio`: populate the collection from the table only
when it is empty (`collection.count() == 0`); otherwise leave it untouched. -/
def load_portfolio (data : List (String × String)) (st : PortfolioState) : PortfolioState :=
  if st.coll.length = 0 then insertRows st data else st

/-- `Portfolio.load_custom_portfolio`: the column check precedes any mutation;
on success every existing document is deleted by its id and one document per
row is inserted with a fresh key. Returns the resulting state plus the
success/error outcome (the code raises `ValueError` on a column mismatch). -/
def load_custom_portfolio (st : PortfolioState) (df : DataFrame) :
    PortfolioState × Except String Unit :=
  if df.columns = ["Techstack", "Links"] then
    let existingIds := st.coll.map Doc.id
    let cleared : PortfolioState := ⟨deleteByIds st.coll existingIds, st.nextId⟩
    (insertRows cleared df.rows, Except.ok ())
  else
    (st, Except.error "DataFrame must have Techstack and Links columns")

/-- The stringified query response, as far as `query_links` reads it: the
`documents` entry is one inner list of rendered documents per query text. -/
structure QueryResponse where
  documents : List (List String)
deriving Repr

/-- The store behaviour behind `collection.query(query_texts, n_results)`:
external, so a parameter; it may fail (`Except.error`). -/
def StoreFun : Type :=
  List String → Nat → Except String QueryResponse

/-- Matching `p` as a literal prefix, returning the remainder. -/
def dropPrefixChars : List Char → List Char → Option (List Char)
  | [], cs => some cs
  | _ :: _, [] => none
  | p :: ps, c :: cs => if c = p then dropPrefixChars ps cs else none

/-- The single-quote character used by Python `repr` of a string. -/
def pyQuote : Char := Char.ofNat 39

/-- Python `str()` of a list of strings (as fed to `re.search` by
`query_links`): bracketed, comma-separated, each element single-quoted.
Escaping inside elements is elided (the rendered documents contain no quote
or backslash characters). -/
def strOfList (l : List String) : String :=
  "[" ++ String.intercalate ", "
    (l.map (fun s => String.singleton pyQuote ++ s ++ String.singleton pyQuote)) ++ "]"

/-- Try `Links: (https?://\S+)` anchored at the head of `cs`; on success
return the group-1 token (scheme plus the greedy non-whitespace run). -/
def matchLinksAt (cs : List Char) : Option (List Char) :=
  match dropPrefixChars ['L','i','n','k','s',':',' '] cs with
  | none => none
  | some r =>
    match dropPrefixChars ['h','t','t','p'] r with
    | none => none
    | some r1 =>
      match r1 with
      | 's' :: r2 =>
        match dropPrefixChars [':','/','/'] r2 with
        | some r3 =>
          let run := r3.takeWhile (fun c => !isPySpace c)
          if run.isEmpty then none
          else some (['h','t','t','p','s',':','/','/'] ++ run)
        | none => none
      | _ =>
        match dropPrefixChars [':','/','/'] r1 with
        | some r3 =>
          let run := r3.takeWhile (fun c => !isPySpace c)
          if run.isEmpty then none
          else some (['h','t','t','p',':','/','/'] ++ run)
        | none => none

/-- Leftmost match of `re.search(r'Links: (https?://\S+)', …)`. -/
def searchLink : List Char → Option (List Char)
  | [] => none
  | c :: rest =>
    match matchLinksAt (c :: rest) with
    | some g => some g
    | none => searchLink rest

/-- `re.search(r'Links: (https?://\S+)', s)` returning `group(1)`. -/
def extractLink (s : String) : Option String :=
  (searchLink s.data).map (fun g => String.mk g)

/-- The result-extraction loop of `query_links`: one pass over the outer
`documents` list; empty inner lists are skipped (`if doc:`); the whole inner
list is stringified and a single search contributes at most one link. -/
def extractLinks : List (List String) → List String
  | [] => []
  | doc :: rest =>
    let tail := extractLinks rest
    if doc.isEmpty then tail
    else
      match extractLink (strOfList doc) with
      | some l => l :: tail
      | none => tail

/-- `Portfolio.query_links`, instrumented: returns the links list together
with the list of `(query_texts, n_results)` calls issued to the store.
Normalize, bail out on an empty normalized list, join with " OR ", issue one
query with `n_results=3`, and swallow any store failure into `[]`. -/
def query_links_instr (store : StoreFun) (skills : SkillsInput) :
    List String × List (List String × Nat) :=
  if (normalizeSkills skills).isEmpty then ([], [])
  else
    match store [String.intercalate " OR " (normalizeSkills skills)] 3 with
    | Except.error _ =>
        ([], [([String.intercalate " OR " (normalizeSkills skills)], 3)])
    | Except.ok results =>
        (extractLinks results.documents,
         [([String.intercalate " OR " (normalizeSkills skills)], 3)])

/-- `Portfolio.query_links` proper: just the returned links. -/
def query_links (store : StoreFun) (skills : SkillsInput) : List String :=
  (query_links_instr store skills).1

/- Concrete fixtures for witnesses and counterexamples. -/

/-- The spec §8 example row "Python | Django" rendered as a document. -/
def exDocA : String := renderDoc "Python | Django" "https://a.example/x"

/-- The spec §8 example row "Go | Kubernetes" rendered as a document. -/
def exDocB : String := renderDoc "Go | Kubernetes" "https://b.example/y"

/-- A store holding the two spec §8 rows and returning both for any query. -/
def exStore : StoreFun := fun qs _ => Except.ok ⟨qs.map (fun _ => [exDocA, exDocB])⟩

/-- A store that always fails. -/
def downStore : StoreFun := fun _ _ => Except.error "store unavailable"

/-- A store that always answers with no matches. -/
def emptyStore : StoreFun := fun qs _ => Except.ok ⟨qs.map (fun _ => [])⟩

/-- Ten distinct highly relevant documents (spec §8 result-cap scenario). -/
def tenDocs : List String :=
  (List.range 10).map (fun i => renderDoc "Python | Django" ("https://ex.example/p" ++ toString i))

/-- A store holding `tenDocs` and returning all ten for any query. -/
def tenStore : StoreFun := fun qs _ => Except.ok ⟨qs.map (fun _ => tenDocs)⟩

/-- An example portfolio state with one loaded document. -/
def stOne : PortfolioState := ⟨[⟨0, renderDoc "A" "https://a.example", "A"⟩], 1⟩

/-- An example valid two-column table. -/
def dfEx : DataFrame :=
  ⟨["Techstack", "Links"], [("Python | Django", "https://a.example/x"), ("Go | Kubernetes", "https://b.example/y")]⟩

/-- An example table with the two columns swapped. -/
def dfSwapped : DataFrame :=
  ⟨["Links", "Techstack"], [("https://a.example/x", "Python | Django")]⟩

/- `utils.clean_text`: the five regex substitutions plus the final
split/join, embedded step by step. On a `str` input none of the steps can
raise, so the `except` fallback of the Python code is unreachable. -/

/-- Scanner for `re.sub(r'<[^>]*?>', '', text)`: `some pending` buffers the
characters (reversed) of a `<` whose closing `>` has not yet arrived; if no
`>` ever arrives the buffer is kept verbatim, matching the regex finding no
match at that `<` (and then at no later position either). -/
def subHtmlAux : Option (List Char) → List Char → List Char
  | none, [] => []
  | some pending, [] => pending.reverse
  | none, c :: rest =>
    if c = '<' then subHtmlAux (some [c]) rest
    else c :: subHtmlAux none rest
  | some pending, c :: rest =>
    if c = '>' then subHtmlAux none rest
    else subHtmlAux (some (c :: pending)) rest

/-- `re.sub(r'<[^>]*?>', '', text)`. -/
def subHtml (cs : List Char) : List Char := subHtmlAux none cs

/-- The character class of the URL-removal regex of `clean_text`:
`[a-zA-Z]`, `[0-9]`, `[$-_@.&+]` (a range covering 0x24–0x5F, the extra
members being redundant) and `[!*\(\),]`; the `%hh` alternative is subsumed,
all its characters lying in the `$-_` range. -/
def isUrlChar (c : Char) : Bool :=
  ('a' ≤ c && c ≤ 'z') || ('A' ≤ c && c ≤ 'Z') || ('0' ≤ c && c ≤ '9')
  || ('$' ≤ c && c ≤ '_') || c = '!' || c = '*' || c = '\\'
  || c = '(' || c = ')' || c = ','

/-- `http[s]?://` after the literal `http`: greedy `[s]?` first tries to
consume an `s`, backtracking to the empty match when `://` does not follow. -/
def schemeRest (r1 : List Char) : Option (List Char) :=
  match r1 with
  | c :: r2 =>
    if c = 's' then
      match dropPrefixChars [':', '/', '/'] r2 with
      | some r3 => some r3
      | none => dropPrefixChars [':', '/', '/'] r1
    else dropPrefixChars [':', '/', '/'] r1
  | [] => dropPrefixChars [':', '/', '/'] r1

/-- Try the URL regex anchored at the head of `cs`; on success return the
remainder after the greedy match (scheme, then one or more URL chars). -/
def matchUrlAt (cs : List Char) : Option (List Char) :=
  match dropPrefixChars ['h', 't', 't', 'p'] cs with
  | none => none
  | some r1 =>
    match schemeRest r1 with
    | none => none
    | some r3 =>
      if (r3.takeWhile isUrlChar).isEmpty then none
      else some (r3.dropWhile isUrlChar)

/-- `re.sub` scan for the URL regex, fuelled: each step either removes a
match (consuming at least eight characters) or keeps one character, so
`fuel = cs.length` never runs out; the fuel-exhausted arm returns the rest
unscanned, which is also what an exhausted scan leaves in place. -/
def subUrlsFuel : Nat → List Char → List Char
  | 0, cs => cs
  | _ + 1, [] => []
  | fuel + 1, c :: rest =>
    match matchUrlAt (c :: rest) with
    | some rem => subUrlsFuel fuel rem
    | none => c :: subUrlsFuel fuel rest

/-- `re.sub(r'http[s]?://(?:…)+', '', text)`. -/
def subUrls (cs : List Char) : List Char := subUrlsFuel cs.length cs

/-- Scanner for `re.sub(r'\s{2,}', ' ', text)`: `some (c0, more)` records an
open whitespace run begun by `c0` and whether it already has length ≥ 2; a
length-1 run is emitted verbatim (the regex does not match it), a longer one
becomes a single space. -/
def collapseAux : Option (Char × Bool) → List Char → List Char
  | none, [] => []
  | some (c0, more), [] => if more then [' '] else [c0]
  | none, c :: rest =>
    if isPySpace c then collapseAux (some (c, false)) rest
    else c :: collapseAux none rest
  | some (c0, more), c :: rest =>
    if isPySpace c then collapseAux (some (c0, true)) rest
    else (if more then [' '] else [c0]) ++ c :: collapseAux none rest

/-- `re.sub(r'\s{2,}', ' ', text)`. -/
def collapseWs (cs : List Char) : List Char := collapseAux none cs

/-- Scanner for Python `str.split()`: `some w` holds the reversed characters
of the word currently being read; words are maximal whitespace-free runs. -/
def pySplitAux : Option (List Char) → List Char → List (List Char)
  | none, [] => []
  | some w, [] => [w.reverse]
  | none, c :: rest =>
    if isPySpace c then pySplitAux none rest
    else pySplitAux (some [c]) rest
  | some w, c :: rest =>
    if isPySpace c then w.reverse :: pySplitAux none rest
    else pySplitAux (some (c :: w)) rest

/-- Python `str.split()` (split on whitespace runs, no empty words). -/
def pySplit (cs : List Char) : List (List Char) := pySplitAux none cs

/-- `' '.join(words)`. -/
def joinSpace : List (List Char) → List Char
  | [] => []
  | [w] => w
  | w :: ws => w ++ ' ' :: joinSpace ws

/-- `utils.clean_text` on a character list: strip HTML tags, strip URLs,
keep `[a-zA-Z0-9 ]`, collapse whitespace runs, strip, split and rejoin. -/
def cleanChars (cs : List Char) : List Char :=
  joinSpace (pySplit (pyStrip (collapseWs
    ((subUrls (subHtml cs)).filter isAlnumSpace))))

/-- `utils.clean_text`. -/
def clean_text (s : String) : String := ⟨cleanChars s.data⟩

/-- A word of a cleaned string: non-empty, alphanumeric, whitespace-free. -/
def GoodWord (w : List Char) : Prop :=
  w ≠ [] ∧ ∀ c ∈ w, isAlnumSpace c = true ∧ isPySpace c = false

/-- All words good. -/
def GoodWords (ws : List (List Char)) : Prop := ∀ w ∈ ws, GoodWord w

/- Helper lemmas about the embedding. -/

theorem extractLinks_length_le (dl : List (List String)) :
    (extractLinks dl).length ≤ dl.length := by
  induction dl with
  | nil => simp [extractLinks]
  | cons doc rest ih =>
    simp only [extractLinks]
    split
    · exact Nat.le_succ_of_le ih
    · cases extractLink (strOfList doc) with
      | some l => simpa using Nat.succ_le_succ ih
      | none => exact Nat.le_succ_of_le ih

theorem newDocs_length (n : Nat) (rows : List (String × String)) :
    (newDocs n rows).length = rows.length := by
  induction rows generalizing n with
  | nil => rfl
  | cons r rest ih => simp [newDocs, ih]

theorem newDocs_content (n : Nat) (rows : List (String × String)) :
    (newDocs n rows).map (fun d => (d.techstack, d.text))
      = rows.map (fun r => (r.1, renderDoc r.1 r.2)) := by
  induction rows generalizing n with
  | nil => rfl
  | cons r rest ih => simp [newDocs, ih]

theorem newDocs_id_lb (n : Nat) (rows : List (String × String)) :
    ∀ d ∈ newDocs n rows, n ≤ d.id := by
  induction rows generalizing n with
  | nil => intro d hd; simp [newDocs] at hd
  | cons r rest ih =>
    intro d hd
    simp only [newDocs, List.mem_cons] at hd
    rcases hd with h | h
    · subst h; exact Nat.le_refl n
    · exact Nat.le_of_succ_le (ih (n + 1) d h)

theorem newDocs_ids_nodup (n : Nat) (rows : List (String × String)) :
    ((newDocs n rows).map Doc.id).Nodup := by
  induction rows generalizing n with
  | nil => simp [newDocs]
  | cons r rest ih =>
    simp only [newDocs, List.map_cons, List.nodup_cons]
    refine ⟨?_, ih (n + 1)⟩
    intro hmem
    rcases List.mem_map.mp hmem with ⟨d, hd, hid⟩
    have := newDocs_id_lb (n + 1) rest d hd
    omega

theorem deleteByIds_all (docs : List Doc) :
    deleteByIds docs (docs.map Doc.id) = [] := by
  rw [deleteByIds, List.filter_eq_nil_iff]
  intro d hd
  simp [List.mem_map]
  exact ⟨d, hd, rfl⟩

theorem insertRows_nil (st : PortfolioState) : insertRows st [] = st := by
  simp [insertRows, newDocs]

theorem insertRows_coll_length (st : PortfolioState) (rows : List (String × String)) :
    (insertRows st rows).coll.length = st.coll.length + rows.length := by
  simp [insertRows, newDocs_length]

/- Claim theorems. -/

/-- C4: after a successful `load_custom_portfolio` on a valid two-column
table, the collection corresponds exactly to the rows of the table (same
count, same content in order), the generated keys are pairwise distinct, and
no document from the prior state survives. -/
theorem C4_load_custom_replaces (st : PortfolioState) (df : DataFrame)
    (hcols : df.columns = ["Techstack", "Links"]) (hwf : WFState st) :
    (load_custom_portfolio st df).2 = Except.ok () ∧
    (load_custom_portfolio st df).1.coll.length = df.rows.length ∧
    (load_custom_portfolio st df).1.coll.map (fun d => (d.techstack, d.text))
      = df.rows.map (fun r => (r.1, renderDoc r.1 r.2)) ∧
    ((load_custom_portfolio st df).1.coll.map Doc.id).Nodup ∧
    ∀ d ∈ (load_custom_portfolio st df).1.coll, d ∉ st.coll := by
  have hcoll : (load_custom_portfolio st df).1.coll = newDocs st.nextId df.rows := by
    simp [load_custom_portfolio, hcols, insertRows, deleteByIds_all]
  refine ⟨by simp [load_custom_portfolio, hcols], ?_, ?_, ?_, ?_⟩
  · rw [hcoll, newDocs_length]
  · rw [hcoll, newDocs_content]
  · rw [hcoll]; exact newDocs_ids_nodup _ _
  · rw [hcoll]
    intro d hd hold
    have h1 := newDocs_id_lb st.nextId df.rows d hd
    have h2 := hwf d hold
    omega

/-- C4 witness: a concrete valid table replaces a concrete one-document
state, yielding success and exactly as many documents as rows. -/
theorem C4_load_custom_replaces_witness :
    (load_custom_portfolio stOne dfEx).2 = Except.ok () ∧
    (load_custom_portfolio stOne dfEx).1.coll.length = dfEx.rows.length :=
  ⟨(C4_load_custom_replaces stOne dfEx rfl
      (fun d hd => by simp [stOne] at hd; simp [hd, stOne])).1,
   (C4_load_custom_replaces stOne dfEx rfl
      (fun d hd => by simp [stOne] at hd; simp [hd, stOne])).2.1⟩

/-- C5: a table whose column list is not exactly `["Techstack", "Links"]`
makes `load_custom_portfolio` fail with the schema error and leaves the
prior state completely unchanged. -/
theorem C5_schema_error (st : PortfolioState) (df : DataFrame)
    (h : df.columns ≠ ["Techstack", "Links"]) :
    load_custom_portfolio st df
      = (st, Except.error "DataFrame must have Techstack and Links columns") := by
  simp [load_custom_portfolio, h]

/-- C5 witness: the swapped-column table is rejected and the state is kept. -/
theorem C5_schema_error_witness :
    load_custom_portfolio stOne dfSwapped
      = (stOne, Except.error "DataFrame must have Techstack and Links columns") :=
  C5_schema_error stOne dfSwapped (by decide)

/-- C6: bootstrap is idempotent: a collection holding at least one document
is left untouched by `load_portfolio`, running it twice equals running it
once, and only an empty collection is populated from the table. -/
theorem C6_bootstrap_idempotent (data : List (String × String)) (st : PortfolioState) :
    (0 < st.coll.length → load_portfolio data st = st) ∧
    load_portfolio data (load_portfolio data st) = load_portfolio data st ∧
    (st.coll.length = 0 → load_portfolio data st = insertRows st data) := by
  by_cases h : st.coll.length = 0
  · refine ⟨fun hpos => absurd h (by omega), ?_, fun _ => by simp [load_portfolio, h]⟩
    cases data with
    | nil =>
      simp [load_portfolio, h, insertRows_nil]
    | cons r rest =>
      have h1 : load_portfolio (r :: rest) st = insertRows st (r :: rest) := by
        simp [load_portfolio, h]
      have h2 : (insertRows st (r :: rest)).coll.length ≠ 0 := by
        rw [insertRows_coll_length]; simp
      rw [h1]
      simp [load_portfolio, h2]
  · have hid : load_portfolio data st = st := by simp [load_portfolio, h]
    exact ⟨fun _ => hid, by rw [hid, hid], fun h0 => absurd h0 h⟩

/-- C6 witness: a one-document state is left untouched by `load_portfolio`. -/
theorem C6_bootstrap_idempotent_witness :
    load_portfolio [("B", "https://b.example")] stOne = stOne :=
  (C6_bootstrap_idempotent [("B", "https://b.example")] stOne).1 (by decide)

/-- C7: when every retrieval against the store fails, `query_links` swallows
the failure and returns the empty list instead of raising. -/
theorem C7_query_never_raises (store : StoreFun) (skills : SkillsInput)
    (hfail : ∀ qs n r, store qs n ≠ Except.ok r) :
    query_links store skills = [] := by
  unfold query_links query_links_instr
  split
  · rfl
  · cases hstore : store [String.intercalate " OR " (normalizeSkills skills)] 3 with
    | error e => simp [hstore]
    | ok r => exact absurd hstore (hfail _ _ r)

/-- C7 witness: a store that always errors yields the empty result. -/
theorem C7_query_never_raises_witness :
    query_links downStore (.single "Python") = [] :=
  C7_query_never_raises downStore (.single "Python")
    (fun qs n r h => by simp [downStore] at h)

/-- C8: against any store answering with one inner document list per query
text, `query_links` returns at most 3 links, and every issued store call
requests `n_results = 3`. -/
theorem C8_result_cap (store : StoreFun) (skills : SkillsInput)
    (hwf : ∀ qs n r, store qs n = Except.ok r → r.documents.length ≤ qs.length) :
    (query_links store skills).length ≤ 3 ∧
    ∀ c ∈ (query_links_instr store skills).2, c.2 = 3 := by
  unfold query_links query_links_instr
  split
  · simp
  · cases hstore : store [String.intercalate " OR " (normalizeSkills skills)] 3 with
    | error e => simp [hstore]
    | ok r =>
      have h1 : r.documents.length ≤ 1 := hwf _ _ r hstore
      have h2 := extractLinks_length_le r.documents
      simp only [hstore]
      exact ⟨by omega, by simp⟩

/-- C8 witness: a ten-document fully relevant store yields at most 3 links. -/
theorem C8_result_cap_witness :
    (query_links tenStore (.single "Python")).length ≤ 3 :=
  (C8_result_cap tenStore (.single "Python")
    (fun qs n r h => by simp [tenStore] at h; simp [← h])).1

/-- C2: against any store answering with one inner document list per query
text, `query_links` returns at most one link: the single inner list is
stringified and one regex search yields at most one URL. -/
theorem C2_at_most_one_link (store : StoreFun) (skills : SkillsInput)
    (hwf : ∀ qs n r, store qs n = Except.ok r → r.documents.length ≤ qs.length) :
    (query_links store skills).length ≤ 1 := by
  unfold query_links query_links_instr
  split
  · simp
  · cases hstore : store [String.intercalate " OR " (normalizeSkills skills)] 3 with
    | error e => simp [hstore]
    | ok r =>
      have h1 : r.documents.length ≤ 1 := hwf _ _ r hstore
      have h2 := extractLinks_length_le r.documents
      simp only [hstore]
      omega

/-- C2 witness: the two-document seeded store yields at most one link. -/
theorem C2_at_most_one_link_witness :
    (query_links exStore (.single "Python")).length ≤ 1 :=
  C2_at_most_one_link exStore (.single "Python")
    (fun qs n r h => by simp [exStore] at h; simp [← h])

/-- C9: a non-empty normalized skill list makes `query_links` issue exactly
one store call, whose query string joins the skills with " OR " and whose
requested result count is 3. -/
theorem C9_single_or_query (store : StoreFun) (skills : SkillsInput)
    (hne : normalizeSkills skills ≠ []) :
    (query_links_instr store skills).2
      = [([String.intercalate " OR " (normalizeSkills skills)], 3)] := by
  unfold query_links_instr
  have hie : (normalizeSkills skills).isEmpty = false := by
    cases h : normalizeSkills skills with
    | nil => exact absurd h hne
    | cons a l => rfl
  simp only [hie]
  cases hstore : store [String.intercalate " OR " (normalizeSkills skills)] 3 with
  | error e => simp [hstore]
  | ok r => simp [hstore]

/-- C9 witness: the skill "Python" issues exactly one call for query
"Python" with 3 requested results. -/
theorem C9_single_or_query_witness :
    (query_links_instr emptyStore (.single "Python")).2 = [(["Python"], 3)] :=
  C9_single_or_query emptyStore (.single "Python") (by decide)

/-- C3 counterexample: the skills list `["", "  ", None]` does NOT normalize
to the empty set — the falsy filter runs before stripping, so `"  "` survives
as `""` — and `query_links` therefore DOES issue a store query (with the
empty query string), contradicting the claimed no-store-access behaviour. -/
theorem C3_empty_skills_cex :
    normalizeSkills (.many [.pyStr "", .pyStr "  ", .pyNone]) = [""] ∧
    (query_links_instr emptyStore (.many [.pyStr "", .pyStr "  ", .pyNone])).2
      = [([""], 3)] ∧
    [(([""] : List String), 3)] ≠ ([] : List (List String × Nat)) :=
  ⟨by decide, by decide, by decide⟩

/-- C3 amended: whenever the normalized skill list is empty (which holds for
`queryLinks([])`, but not for `queryLinks(["", "  ", None])`, whose
whitespace-only entry survives normalization as `""`), `query_links` returns
the empty result without issuing any store call. -/
theorem C3_empty_skills_amended (store : StoreFun) (skills : SkillsInput)
    (h : normalizeSkills skills = []) :
    query_links_instr store skills = ([], []) := by
  unfold query_links_instr
  simp [h]

/-- C3 witness: the empty skills list issues no store call and returns
nothing. -/
theorem C3_empty_skills_amended_witness :
    query_links_instr emptyStore (.many []) = ([], []) :=
  C3_empty_skills_amended emptyStore (.many []) rfl

/-- C1 counterexample: against the store seeded with the two spec rows, both
rendered documents contain parseable links, yet `query_links(["Python"])`
returns a single bare string — the first URL found in the stringified inner
list, dragging along the closing quote and comma of the Python list repr —
not one (techstack, link) pair per matched document: the second document's
link is absent and the result has length 1, not 2. -/
theorem C1_query_links_cex :
    query_links exStore (.single "Python")
      = ["https://a.example/x" ++ String.singleton pyQuote ++ ","] ∧
    (query_links exStore (.single "Python")).length = 1 ∧
    "https://b.example/y" ∉ query_links exStore (.single "Python") :=
  ⟨by decide, by decide, by decide⟩

/-- C1 amended: for a store response holding one inner list of rendered
documents, `query_links` returns bare link strings, not pairs: the whole
inner list is stringified and a single regex search contributes at most the
first `Links: https?://\S+` token (possibly with trailing repr punctuation);
an empty inner list, or one in which no link parses, is silently skipped. -/
theorem C1_query_links_amended (store : StoreFun) (skills : SkillsInput)
    (inner : List String) (hne : normalizeSkills skills ≠ [])
    (hresp : store [String.intercalate " OR " (normalizeSkills skills)] 3
      = Except.ok ⟨[inner]⟩) :
    query_links store skills
      = if inner.isEmpty then [] else (extractLink (strOfList inner)).toList := by
  unfold query_links query_links_instr
  have hie : (normalizeSkills skills).isEmpty = false := by
    cases h : normalizeSkills skills with
    | nil => exact absurd h hne
    | cons a l => rfl
  simp only [hie, Bool.false_eq_true, if_false, hresp]
  show extractLinks [inner] = _
  unfold extractLinks
  cases hE : inner.isEmpty
  · cases hx : extractLink (strOfList inner) <;> simp [hE, hx, extractLinks]
  · simp [hE, extractLinks]

/-- C1 amended witness: the two-document seeded store yields exactly the
single extracted token of the stringified inner list. -/
theorem C1_query_links_amended_witness :
    query_links exStore (.single "Python")
      = if ([exDocA, exDocB] : List String).isEmpty then []
        else (extractLink (strOfList [exDocA, exDocB])).toList :=
  C1_query_links_amended exStore (.single "Python") [exDocA, exDocB]
    (by decide) rfl

/- Lemmas for `clean_text` (C10). -/

theorem subHtmlAux_id (cs : List Char) (h : ∀ c ∈ cs, c ≠ '<') :
    subHtmlAux none cs = cs := by
  induction cs with
  | nil => rfl
  | cons c rest ih =>
    have hc : c ≠ '<' := h c (List.mem_cons_self c rest)
    simp only [subHtmlAux, hc, if_false]
    rw [ih (fun x hx => h x (List.mem_cons_of_mem c hx))]

theorem dropPrefixChars_sub (p : List Char) :
    ∀ cs r, dropPrefixChars p cs = some r → ∀ x ∈ r, x ∈ cs := by
  induction p with
  | nil =>
    intro cs r h x hx
    simp only [dropPrefixChars, Option.some.injEq] at h
    rwa [h]
  | cons q ps ih =>
    intro cs r h x hx
    cases cs with
    | nil => simp [dropPrefixChars] at h
    | cons c cs' =>
      simp only [dropPrefixChars] at h
      by_cases hc : c = q
      · rw [if_pos hc] at h
        exact List.mem_cons_of_mem c (ih cs' r h x hx)
      · rw [if_neg hc] at h
        exact absurd h (by simp)

theorem dropPrefixChars_head (q : Char) (ps : List Char) :
    ∀ cs r, dropPrefixChars (q :: ps) cs = some r → q ∈ cs := by
  intro cs r h
  cases cs with
  | nil => simp [dropPrefixChars] at h
  | cons c cs' =>
    simp only [dropPrefixChars] at h
    by_cases hc : c = q
    · rw [hc]; exact List.mem_cons_self q cs'
    · rw [if_neg hc] at h
      exact absurd h (by simp)

theorem schemeRest_colon (r1 r3 : List Char) (h : schemeRest r1 = some r3) :
    (':' : Char) ∈ r1 := by
  cases r1 with
  | nil =>
    simp only [schemeRest] at h
    exact absurd h (by simp [dropPrefixChars])
  | cons c r2 =>
    simp only [schemeRest] at h
    by_cases hc : c = 's'
    · rw [if_pos hc] at h
      cases h2 : dropPrefixChars [':', '/', '/'] r2 with
      | some r => exact List.mem_cons_of_mem c (dropPrefixChars_head ':' ['/', '/'] r2 r h2)
      | none =>
        rw [h2] at h
        exact dropPrefixChars_head ':' ['/', '/'] (c :: r2) r3 h
    · rw [if_neg hc] at h
      exact dropPrefixChars_head ':' ['/', '/'] (c :: r2) r3 h

theorem matchUrlAt_none (cs : List Char) (h : (':' : Char) ∉ cs) :
    matchUrlAt cs = none := by
  unfold matchUrlAt
  split
  · rfl
  · rename_i r1 h1
    split
    · rfl
    · rename_i r3 h2
      exact absurd (dropPrefixChars_sub _ cs r1 h1 ':' (schemeRest_colon r1 r3 h2)) h

theorem subUrlsFuel_id (f : Nat) :
    ∀ cs, (':' : Char) ∉ cs → subUrlsFuel f cs = cs := by
  induction f with
  | zero => intro cs _; rfl
  | succ f ih =>
    intro cs h
    cases cs with
    | nil => rfl
    | cons c rest =>
      simp only [subUrlsFuel, matchUrlAt_none (c :: rest) h]
      rw [ih rest (fun hx => h (List.mem_cons_of_mem c hx))]

theorem collapseAux_mem :
    ∀ (cs : List Char) (st : Option (Char × Bool)) (c : Char),
      c ∈ collapseAux st cs →
      c ∈ cs ∨ c = ' ' ∨ (∃ c0 m, st = some (c0, m) ∧ c = c0) := by
  intro cs
  induction cs with
  | nil =>
    intro st c hc
    match st with
    | none => simp [collapseAux] at hc
    | some (c0, more) =>
      simp only [collapseAux] at hc
      cases more with
      | true => simp at hc; exact Or.inr (Or.inl hc)
      | false => simp at hc; exact Or.inr (Or.inr ⟨c0, false, rfl, hc⟩)
  | cons c' rest ih =>
    intro st c hc
    match st with
    | none =>
      simp only [collapseAux] at hc
      by_cases hs : isPySpace c'
      · rw [if_pos hs] at hc
        rcases ih (some (c', false)) c hc with h | h | ⟨c0, m, hst, hcc⟩
        · exact Or.inl (List.mem_cons_of_mem c' h)
        · exact Or.inr (Or.inl h)
        · cases hst; exact Or.inl (by rw [hcc]; exact List.mem_cons_self c' rest)
      · rw [if_neg hs] at hc
        rcases List.mem_cons.mp hc with h | h
        · exact Or.inl (by rw [h]; exact List.mem_cons_self c' rest)
        · rcases ih none c h with h2 | h2 | ⟨c0, m, hst, _⟩
          · exact Or.inl (List.mem_cons_of_mem c' h2)
          · exact Or.inr (Or.inl h2)
          · exact absurd hst (by simp)
    | some (c0, more) =>
      simp only [collapseAux] at hc
      by_cases hs : isPySpace c'
      · rw [if_pos hs] at hc
        rcases ih (some (c0, true)) c hc with h | h | ⟨c1, m, hst, hcc⟩
        · exact Or.inl (List.mem_cons_of_mem c' h)
        · exact Or.inr (Or.inl h)
        · cases hst; exact Or.inr (Or.inr ⟨c0, more, rfl, hcc⟩)
      · rw [if_neg hs] at hc
        rcases List.mem_append.mp hc with h | h
        · cases more with
          | true => simp at h; exact Or.inr (Or.inl h)
          | false => simp at h; exact Or.inr (Or.inr ⟨c0, false, rfl, h⟩)
        · rcases List.mem_cons.mp h with h2 | h2
          · exact Or.inl (by rw [h2]; exact List.mem_cons_self c' rest)
          · rcases ih none c h2 with h3 | h3 | ⟨c0', m, hst, _⟩
            · exact Or.inl (List.mem_cons_of_mem c' h3)
            · exact Or.inr (Or.inl h3)
            · exact absurd hst (by simp)

theorem pyStrip_mem (cs : List Char) (c : Char) (h : c ∈ pyStrip cs) : c ∈ cs := by
  unfold pyStrip dropTrailingWs at h
  rw [List.mem_reverse] at h
  have h1 := (List.dropWhile_sublist isPySpace).mem h
  rw [List.mem_reverse] at h1
  exact (List.dropWhile_sublist isPySpace).mem h1

theorem pySplitAux_good :
    ∀ (cs : List Char) (st : Option (List Char)),
      (∀ c ∈ cs, isAlnumSpace c = true) →
      (∀ a, st = some a → a ≠ [] ∧ ∀ c ∈ a, isAlnumSpace c = true ∧ isPySpace c = false) →
      GoodWords (pySplitAux st cs) := by
  intro cs
  induction cs with
  | nil =>
    intro st hcs hst w hw
    match st with
    | none => simp [pySplitAux] at hw
    | some a =>
      simp only [pySplitAux, List.mem_singleton] at hw
      subst hw
      obtain ⟨hne, hgood⟩ := hst a rfl
      exact ⟨by simpa [List.reverse_eq_nil_iff] using hne,
             fun c hc => hgood c (List.mem_reverse.mp hc)⟩
  | cons c' rest ih =>
    intro st hcs hst
    have hcs' : ∀ c ∈ rest, isAlnumSpace c = true :=
      fun c hc => hcs c (List.mem_cons_of_mem c' hc)
    have hc' : isAlnumSpace c' = true := hcs c' (List.mem_cons_self c' rest)
    match st with
    | none =>
      simp only [pySplitAux]
      by_cases hs : isPySpace c'
      · rw [if_pos hs]
        exact ih none hcs' (by simp)
      · rw [if_neg hs]
        refine ih (some [c']) hcs' ?_
        intro a ha
        injection ha with h
        subst h
        refine ⟨by simp, fun c hc => ?_⟩
        simp only [List.mem_singleton] at hc
        subst hc
        exact ⟨hc', by simpa using hs⟩
    | some w =>
      simp only [pySplitAux]
      by_cases hs : isPySpace c'
      · rw [if_pos hs]
        intro u hu
        rcases List.mem_cons.mp hu with h | h
        · subst h
          obtain ⟨hne, hgood⟩ := hst w rfl
          exact ⟨by simpa [List.reverse_eq_nil_iff] using hne,
                 fun c hc => hgood c (List.mem_reverse.mp hc)⟩
        · exact ih none hcs' (by simp) u h
      · rw [if_neg hs]
        refine ih (some (c' :: w)) hcs' ?_
        intro a ha
        injection ha with h
        subst h
        obtain ⟨hne, hgood⟩ := hst w rfl
        refine ⟨by simp, fun c hc => ?_⟩
        rcases List.mem_cons.mp hc with h2 | h2
        · subst h2
          exact ⟨hc', by simpa using hs⟩
        · exact hgood c h2

theorem joinSpace_mem :
    ∀ (ws : List (List Char)) (c : Char),
      c ∈ joinSpace ws → (∃ w ∈ ws, c ∈ w) ∨ c = ' ' := by
  intro ws
  induction ws with
  | nil => intro c hc; simp [joinSpace] at hc
  | cons w tail ih =>
    intro c hc
    cases tail with
    | nil =>
      simp only [joinSpace] at hc
      exact Or.inl ⟨w, List.mem_cons_self w [], hc⟩
    | cons y t =>
      simp only [joinSpace] at hc
      rcases List.mem_append.mp hc with h | h
      · exact Or.inl ⟨w, by simp, h⟩
      · rcases List.mem_cons.mp h with h2 | h2
        · exact Or.inr h2
        · rcases ih c h2 with ⟨u, hu, hcu⟩ | h3
          · exact Or.inl ⟨u, List.mem_cons_of_mem w hu, hcu⟩
          · exact Or.inr h3

theorem joinSpace_head (ws : List (List Char)) (hg : GoodWords ws) (hne : ws ≠ []) :
    ∃ c t, joinSpace ws = c :: t ∧ isPySpace c = false := by
  cases ws with
  | nil => exact absurd rfl hne
  | cons w tail =>
    obtain ⟨hwne, hwgood⟩ := hg w (List.mem_cons_self w tail)
    cases w with
    | nil => exact absurd rfl hwne
    | cons c w' =>
      cases tail with
      | nil => exact ⟨c, w', rfl, (hwgood c (List.mem_cons_self c w')).2⟩
      | cons y t =>
        exact ⟨c, w' ++ ' ' :: joinSpace (y :: t), by simp [joinSpace],
               (hwgood c (List.mem_cons_self c w')).2⟩

theorem joinSpace_last :
    ∀ (ws : List (List Char)), GoodWords ws → ws ≠ [] →
      ∃ c t, (joinSpace ws).reverse = c :: t ∧ isPySpace c = false := by
  intro ws
  induction ws with
  | nil => intro _ hne; exact absurd rfl hne
  | cons w tail ih =>
    intro hg _
    obtain ⟨hwne, hwgood⟩ := hg w (List.mem_cons_self w tail)
    cases tail with
    | nil =>
      cases hrev : w.reverse with
      | nil => exact absurd (List.reverse_eq_nil_iff.mp hrev) hwne
      | cons c t =>
        have hc : c ∈ w := List.mem_reverse.mp (hrev ▸ List.mem_cons_self c t)
        exact ⟨c, t, by simp [joinSpace, hrev], (hwgood c hc).2⟩
    | cons y t' =>
      have hgt : GoodWords (y :: t') := fun u hu => hg u (List.mem_cons_of_mem w hu)
      obtain ⟨c, t2, hrev, hcns⟩ := ih hgt (by simp)
      refine ⟨c, t2 ++ ' ' :: w.reverse, ?_, hcns⟩
      have step : joinSpace (w :: y :: t') = w ++ ' ' :: joinSpace (y :: t') := by
        simp [joinSpace]
      rw [step, List.reverse_append, List.reverse_cons, hrev]
      simp

theorem collapseAux_word :
    ∀ (w t : List Char), (∀ c ∈ w, isPySpace c = false) →
      collapseAux none (w ++ t) = w ++ collapseAux none t := by
  intro w
  induction w with
  | nil => intro t _; rfl
  | cons c w' ih =>
    intro t hw
    have hc : isPySpace c = false := hw c (List.mem_cons_self c w')
    simp only [List.cons_append, List.append_eq, collapseAux, hc, Bool.false_eq_true,
      if_false]
    rw [ih t (fun x hx => hw x (List.mem_cons_of_mem c hx))]

theorem collapseAux_join :
    ∀ (ws : List (List Char)), GoodWords ws →
      collapseAux none (joinSpace ws) = joinSpace ws := by
  intro ws
  induction ws with
  | nil => intro _; rfl
  | cons w tail ih =>
    intro hg
    obtain ⟨hwne, hwgood⟩ := hg w (List.mem_cons_self w tail)
    have hwns : ∀ c ∈ w, isPySpace c = false := fun c hc => (hwgood c hc).2
    cases tail with
    | nil =>
      have := collapseAux_word w [] hwns
      simpa [joinSpace, collapseAux] using this
    | cons y t' =>
      have hgt : GoodWords (y :: t') := fun u hu => hg u (List.mem_cons_of_mem w hu)
      have hJ := ih hgt
      obtain ⟨c, t2, hJeq, hcns⟩ := joinSpace_head (y :: t') hgt (by simp)
      have step : joinSpace (w :: y :: t') = w ++ ' ' :: joinSpace (y :: t') := by
        simp [joinSpace]
      rw [step, collapseAux_word w (' ' :: joinSpace (y :: t')) hwns]
      congr 1
      rw [hJeq]
      have h2 : collapseAux none (c :: t2) = c :: t2 := by rw [← hJeq]; exact hJ
      have h3 : collapseAux none t2 = t2 := by
        simp only [collapseAux, hcns, Bool.false_eq_true, if_false] at h2
        exact (List.cons.injEq _ _ _ _ ▸ h2).2
      calc collapseAux none (' ' :: c :: t2)
          = collapseAux (some (' ', false)) (c :: t2) := by
            simp [collapseAux, show isPySpace ' ' = true from by decide]
        _ = [' '] ++ c :: collapseAux none t2 := by
            simp [collapseAux, hcns]
        _ = ' ' :: c :: t2 := by rw [h3]; rfl

theorem pyStrip_join :
    ∀ (ws : List (List Char)), GoodWords ws →
      pyStrip (joinSpace ws) = joinSpace ws := by
  intro ws hg
  cases ws with
  | nil => simp [joinSpace, pyStrip, dropTrailingWs]
  | cons w tail =>
    obtain ⟨c, t, hhead, hcns⟩ := joinSpace_head (w :: tail) hg (by simp)
    obtain ⟨c2, t2, hlast, hc2ns⟩ := joinSpace_last (w :: tail) hg (by simp)
    unfold pyStrip
    have h1 : (joinSpace (w :: tail)).dropWhile isPySpace = joinSpace (w :: tail) := by
      rw [hhead]
      simp [List.dropWhile_cons, hcns]
    rw [h1]
    unfold dropTrailingWs
    rw [hlast]
    simp only [List.dropWhile_cons, hc2ns, Bool.false_eq_true, if_false]
    rw [← hlast, List.reverse_reverse]

theorem pySplitAux_word :
    ∀ (w : List Char), (∀ c ∈ w, isPySpace c = false) →
      ∀ (acc t : List Char),
        pySplitAux (some acc) (w ++ t) = pySplitAux (some (w.reverse ++ acc)) t := by
  intro w
  induction w with
  | nil => intro _ acc t; simp
  | cons c w' ih =>
    intro hw acc t
    have hc : isPySpace c = false := hw c (List.mem_cons_self c w')
    simp only [List.cons_append, List.append_eq, pySplitAux, hc, Bool.false_eq_true,
      if_false]
    rw [ih (fun x hx => hw x (List.mem_cons_of_mem c hx)) (c :: acc) t]
    congr 1
    simp

theorem pySplit_join :
    ∀ (ws : List (List Char)), GoodWords ws → pySplit (joinSpace ws) = ws := by
  intro ws
  induction ws with
  | nil => intro _; rfl
  | cons w tail ih =>
    intro hg
    obtain ⟨hwne, hwgood⟩ := hg w (List.mem_cons_self w tail)
    have hwns : ∀ c ∈ w, isPySpace c = false := fun c hc => (hwgood c hc).2
    cases w with
    | nil => exact absurd rfl hwne
    | cons c w' =>
      have hc : isPySpace c = false := hwns c (List.mem_cons_self c w')
      have hw' : ∀ x ∈ w', isPySpace x = false :=
        fun x hx => hwns x (List.mem_cons_of_mem c hx)
      cases tail with
      | nil =>
        show pySplitAux none (joinSpace [c :: w']) = [c :: w']
        simp only [joinSpace, pySplitAux, hc, Bool.false_eq_true, if_false]
        have hstep := pySplitAux_word w' hw' [c] []
        rw [show w' ++ ([] : List Char) = w' from by simp] at hstep
        rw [hstep]
        simp [pySplitAux, List.reverse_append]
      | cons y t' =>
        have hgt : GoodWords (y :: t') := fun u hu => hg u (List.mem_cons_of_mem _ hu)
        have hJ : pySplitAux none (joinSpace (y :: t')) = y :: t' := ih hgt
        show pySplitAux none (joinSpace ((c :: w') :: y :: t')) = (c :: w') :: y :: t'
        simp only [joinSpace, List.cons_append, List.append_eq, pySplitAux, hc,
          Bool.false_eq_true, if_false]
        rw [pySplitAux_word w' hw' [c] (' ' :: joinSpace (y :: t'))]
        simp only [pySplitAux, show isPySpace ' ' = true from by decide, if_true]
        rw [hJ]
        simp [List.reverse_append]

theorem cleanChars_good (cs : List Char) :
    GoodWords (pySplit (pyStrip (collapseWs
      ((subUrls (subHtml cs)).filter isAlnumSpace)))) := by
  have hYa : ∀ c ∈ (subUrls (subHtml cs)).filter isAlnumSpace, isAlnumSpace c = true :=
    fun c hc => List.of_mem_filter hc
  have hCa : ∀ c ∈ collapseWs ((subUrls (subHtml cs)).filter isAlnumSpace),
      isAlnumSpace c = true := by
    intro c hc
    rcases collapseAux_mem _ none c hc with h | h | ⟨c0, m, hst, _⟩
    · exact hYa c h
    · rw [h]; decide
    · exact absurd hst (by simp)
  have hSa : ∀ c ∈ pyStrip (collapseWs ((subUrls (subHtml cs)).filter isAlnumSpace)),
      isAlnumSpace c = true :=
    fun c hc => hCa c (pyStrip_mem _ c hc)
  exact pySplitAux_good _ none hSa (by simp)

/-- C10: `clean_text` output is in normal form — only ASCII alphanumerics and
single spaces (collapsing whitespace runs is a no-op), with no leading or
trailing whitespace (stripping is a no-op) — and `clean_text` is idempotent.
On a string input no regex step of the Python code can raise, so this holds
for every input string. -/
theorem C10_clean_text_normal_idempotent (s : String) :
    (∀ c ∈ (clean_text s).data, isAlnumSpace c = true) ∧
    collapseWs (clean_text s).data = (clean_text s).data ∧
    pyStrip (clean_text s).data = (clean_text s).data ∧
    clean_text (clean_text s) = clean_text s := by
  set ws := pySplit (pyStrip (collapseWs
    ((subUrls (subHtml s.data)).filter isAlnumSpace))) with hws
  have hg : GoodWords ws := cleanChars_good s.data
  have hr : (clean_text s).data = joinSpace ws := rfl
  have halnum : ∀ c ∈ joinSpace ws, isAlnumSpace c = true := by
    intro c hc
    rcases joinSpace_mem ws c hc with ⟨w, hw, hcw⟩ | h
    · exact ((hg w hw).2 c hcw).1
    · rw [h]; decide
  have hcollapse : collapseWs (joinSpace ws) = joinSpace ws := collapseAux_join ws hg
  have hstrip : pyStrip (joinSpace ws) = joinSpace ws := pyStrip_join ws hg
  refine ⟨by rw [hr]; exact halnum, by rw [hr, hcollapse], by rw [hr, hstrip], ?_⟩
  have hlt : ∀ c ∈ joinSpace ws, c ≠ '<' := by
    intro c hc heq
    have h1 := halnum c hc
    rw [heq] at h1
    exact absurd h1 (by decide)
  have hcolon : (':' : Char) ∉ joinSpace ws := by
    intro hc
    exact absurd (halnum ':' hc) (by decide)
  have h1 : subHtml (joinSpace ws) = joinSpace ws := subHtmlAux_id _ hlt
  have h2 : subUrls (joinSpace ws) = joinSpace ws := subUrlsFuel_id _ _ hcolon
  have h3 : (joinSpace ws).filter isAlnumSpace = joinSpace ws :=
    List.filter_eq_self.mpr halnum
  have h4 : pySplit (joinSpace ws) = ws := pySplit_join ws hg
  have hfix : cleanChars (joinSpace ws) = joinSpace ws := by
    show joinSpace (pySplit (pyStrip (collapseWs
      ((subUrls (subHtml (joinSpace ws))).filter isAlnumSpace)))) = joinSpace ws
    rw [h1, h2, h3, hcollapse, hstrip, h4]
  show String.mk (cleanChars (clean_text s).data) = clean_text s
  rw [hr, hfix, ← hr]
